import Mathlib

set_option autoImplicit false

/-
Verification development for the pcvera/blog repository.

Part 1 models the real-time multi-client synchronization engine that the
repository documents (versioned key-value store with check-and-set writes,
an append-only edit log, broadcast to sessions, and rehydration by replay).
The engine itself ships outside this repository, so its definitions are
modelled from the specification text.

Part 2 translates the deploy script (src/unnamed/part_000), which copies the
build output into the pages/ worktree while preserving the pages/.git file.

Part 3 translates the compressImage function of the asset-compaction script
(src/astro.config.mjs), which rewrites an image file only when the
compressed buffer is strictly smaller, and restores originals in dry-run.
-/

namespace SyncEngine

/-- Modelled from the spec: an Entry of the Versioned Key-Value Store holds
a string value and a version, a natural number. -/
structure Entry where
  value : String
  version : Nat
deriving DecidableEq, Repr

/-- Modelled from the spec: the Store is an in-memory mapping from key to
(value, version); keys are unique within a Team Instance. -/
abbrev Store := List (String × Entry)

/-- Look up the entry for a key in the store; none when the key is absent. -/
def findEntry (s : Store) (k : String) : Option Entry :=
  match s with
  | [] => none
  | (k2, e) :: rest => if k2 = k then some e else findEntry rest k

/-- Modelled from the spec: read(key) returns (value, version) and
returns the pair of the empty string and 0 for an absent key. -/
def read (s : Store) (k : String) : String × Nat :=
  match findEntry s k with
  | some e => (e.value, e.version)
  | none => ("", 0)

/-- Replace the entry for a key, or add it when absent (mapping semantics). -/
def setEntry (s : Store) (k : String) (e : Entry) : Store :=
  match s with
  | [] => [(k, e)]
  | (k2, e2) :: rest => if k2 = k then (k, e) :: rest else (k2, e2) :: setEntry rest k e

/-- Modelled from the spec: the result of a check-and-set write, either the
new version on success or a VersionConflict carrying the current value and
current version. -/
inductive WriteResult where
  | ok (newVersion : Nat)
  | versionConflict (currentValue : String) (currentVersion : Nat)
deriving DecidableEq, Repr

/-- Modelled from the spec: write(key, value, expectedVersion) succeeds only
if the current version of the entry equals expectedVersion; on success it
stores value, sets version to expectedVersion + 1 and returns the new
version; on mismatch it fails with VersionConflict(currentValue,
currentVersion) and performs no mutation. -/
def write (s : Store) (k v : String) (expectedVersion : Nat) : WriteResult × Store :=
  if (read s k).2 = expectedVersion then
    (WriteResult.ok (expectedVersion + 1), setEntry s k ⟨v, expectedVersion + 1⟩)
  else
    (WriteResult.versionConflict (read s k).1 (read s k).2, s)

/-- Modelled from the spec: an Edit Record, the unit appended to the Edit
Log at the moment a write is accepted. -/
structure EditRecord where
  key : String
  value : String
  version : Nat
deriving DecidableEq, Repr

/-- Modelled from the spec: a Mutation Request sent by a client, where
baseVersion is the version the client last observed for the key. -/
structure MutationRequest where
  key : String
  value : String
  baseVersion : Nat
deriving DecidableEq, Repr

/-- Modelled from the spec: the per-team state owned by a Team Instance,
one Store and one Edit Log. -/
structure InstanceState where
  store : Store
  log : List EditRecord
deriving DecidableEq, Repr

/-- Modelled from the spec: the Instance Lifecycle Manager states. -/
inductive Lifecycle where
  | cold
  | hydrating
  | warm
  | suspended
deriving DecidableEq, Repr

/-- Modelled from the spec: the client-visible outcome of one mutation
request: applied is broadcast to all sessions, rejected is returned to the
requesting client only, logAppendFailed is a retryable failure returned to
the requesting client only. -/
inductive Outcome where
  | applied (key value : String) (version : Nat)
  | rejected (key currentValue : String) (currentVersion : Nat)
  | logAppendFailed (key : String)
deriving DecidableEq, Repr

/-- The state of a fresh Team Instance: empty store, empty log. -/
def initialState : InstanceState := ⟨[], []⟩

/-- Modelled from the spec: the Conflict Resolver / Request Handler. If
baseVersion equals the current version of the Store for the key, the write
is applied, the Edit Record is appended and the applied outcome is
broadcast; on mismatch the request is rejected with the current value and
version, with no mutation and no log append. The appendOk flag models
whether the durable log append succeeds; per the write-ahead rule a
mutation whose log append fails is not applied to the Store and is
surfaced as a retryable failure, with the Instance staying warm. -/
def handleMutate (appendOk : Bool) (st : InstanceState) (req : MutationRequest) :
    Outcome × InstanceState × Lifecycle :=
  if (read st.store req.key).2 = req.baseVersion then
    if appendOk then
      (Outcome.applied req.key req.value (req.baseVersion + 1),
       ⟨setEntry st.store req.key ⟨req.value, req.baseVersion + 1⟩,
        st.log ++ [⟨req.key, req.value, req.baseVersion + 1⟩]⟩,
       Lifecycle.warm)
    else
      (Outcome.logAppendFailed req.key, st, Lifecycle.warm)
  else
    (Outcome.rejected req.key (read st.store req.key).1 (read st.store req.key).2,
     st, Lifecycle.warm)

/-- Modelled from the spec: message delivery for one outcome. An applied
outcome is broadcast to every session of the instance (the writer
included); a rejected outcome or a retryable log-append failure goes to
the requesting client only. Sessions are identified by numbers. -/
def deliveries (sessions : List Nat) (requester : Nat) : Outcome → List (Nat × Outcome)
  | Outcome.applied k v ver => sessions.map (fun sid => (sid, Outcome.applied k v ver))
  | Outcome.rejected k cv cver => [(requester, Outcome.rejected k cv cver)]
  | Outcome.logAppendFailed k => [(requester, Outcome.logAppendFailed k)]

/-- Modelled from the spec: replay applies the key, value and version of an
Edit Record directly to the store, without re-running CAS checks. -/
def applyRecord (s : Store) (r : EditRecord) : Store :=
  setEntry s r.key ⟨r.value, r.version⟩

/-- Modelled from the spec: rebuilding a Store by replaying a log in order
into an empty store. -/
def replay (recs : List EditRecord) : Store :=
  recs.foldl applyRecord []

/-- The state transition of one mutation request with a successful log
append. -/
def stepState (st : InstanceState) (req : MutationRequest) : InstanceState :=
  (handleMutate true st req).2.1

/-- Process a sequence of mutation requests from a fresh instance. -/
def run (reqs : List MutationRequest) : InstanceState :=
  reqs.foldl stepState initialState

/-- Modelled from the spec: suspension evicts the in-memory Store; the
durable state that survives is the Edit Log. -/
def suspend (st : InstanceState) : List EditRecord := st.log

/-- Modelled from the spec: rehydration rebuilds the Store by sequentially
replaying the full Edit Log. -/
def rehydrate (log : List EditRecord) : InstanceState := ⟨replay log, log⟩

end SyncEngine

namespace DeployScript

/-- A directory, as a mapping from entry name to file content; none means
the entry is absent. -/
abbrev Dir := String → Option String

/-- The directory with no entries. -/
def emptyDir : Dir := fun _ => none

/-- Effect of rmSync on one entry name. -/
def rmEntry (d : Dir) (n : String) : Dir :=
  fun m => if m = n then none else d m

/-- Effect of writing (or copying) one file into the directory. -/
def writeEntry (d : Dir) (n c : String) : Dir :=
  fun m => if m = n then some c else d m

/-- Translated from src/unnamed/part_000 line 63: the names excluded from
deletion. -/
def filesToKeep : List String := [".git"]

/-- Translated from src/unnamed/part_000 lines 58 to 83: the copy phase of
the deploy script acting on the pages/ directory. The listing argument is
the output of ls -A on pages/ (the names of its entries); distEntries are
the name-content pairs of the build output in dist/. The script backs up
pages/.git, deletes every listed entry whose name is nonempty and not in
filesToKeep, copies the dist entries into pages/, writes an empty
.nojekyll file, and restores the .git backup. Returns none when
pages/.git is absent, in which case the script exits before copying. -/
def deployCopy (pages : Dir) (listing : List String) (distEntries : List (String × String)) :
    Option Dir :=
  match pages ".git" with
  | none => none
  | some gitFileBackup =>
    let allFiles := listing.filter (fun f => decide (f ≠ "" ∧ f ∉ filesToKeep))
    let afterDelete := allFiles.foldl rmEntry pages
    let afterCopy := distEntries.foldl (fun d p => writeEntry d p.1 p.2) afterDelete
    let afterNojekyll := writeEntry afterCopy ".nojekyll" ""
    some (writeEntry afterNojekyll ".git" gitFileBackup)

/-- The build output dist/ viewed as a directory: its entries written into
an empty directory. -/
def distDirOf (distEntries : List (String × String)) : Dir :=
  distEntries.foldl (fun d p => writeEntry d p.1 p.2) emptyDir

/-- A concrete pre-deploy pages/ directory: the worktree .git file, a
nojekyll marker holding some content, and a stale page. -/
def pagesExample : Dir :=
  fun n =>
    if n = ".git" then some "G"
    else if n = ".nojekyll" then some "x"
    else if n = "old.html" then some "old"
    else none

/-- The ls -A listing of pagesExample. -/
def listingExample : List String := [".git", ".nojekyll", "old.html"]

/-- A concrete build output: one page and no .nojekyll entry. -/
def distExample : List (String × String) := [("index.html", "site")]

end DeployScript

namespace CompactAssets

/-- Translated from src/astro.config.mjs: the result record returned by
compressImage. -/
structure CompressResult where
  success : Bool
  originalSize : Nat
  compressedSize : Nat
  savings : Nat
deriving DecidableEq, Repr

/-- Translated from compressImage in src/astro.config.mjs lines 213 to 309.
File contents are byte lists; original is the content of the file at
filePath and compressedBuffer is the buffer produced by sharp for it (an
external library, taken as an input here). Returns the final content of
the file at filePath together with the result record. The code writes the
compressed buffer to filePath only when its length is strictly below the
original size and dryRun is off; in dry-run mode it restores the original
from the backup copy; when the compressed buffer is not smaller it leaves
or restores the original. -/
def compressImage (original compressedBuffer : List Nat) (dryRun : Bool) :
    List Nat × CompressResult :=
  let originalSize := original.length
  let compressedSize := compressedBuffer.length
  if compressedSize < originalSize then
    if dryRun then
      (original, ⟨true, originalSize, compressedSize, originalSize - compressedSize⟩)
    else
      (compressedBuffer, ⟨true, originalSize, compressedSize, originalSize - compressedSize⟩)
  else
    (original, ⟨false, originalSize, originalSize, 0⟩)

end CompactAssets

namespace SyncEngine

theorem findEntry_setEntry (s : Store) (k : String) (e : Entry) (q : String) :
    findEntry (setEntry s k e) q = if q = k then some e else findEntry s q := by
  induction s with
  | nil =>
    simp only [setEntry, findEntry]
    by_cases h : q = k
    · subst h; simp
    · rw [if_neg (fun hh => h hh.symm), if_neg h]
  | cons p rest ih =>
    obtain ⟨a, b⟩ := p
    simp only [setEntry]
    by_cases hak : a = k
    · subst hak
      rw [if_pos rfl]
      simp only [findEntry]
      by_cases hq : q = a
      · subst hq; simp
      · rw [if_neg (fun hh => hq hh.symm), if_neg hq, if_neg (fun hh => hq hh.symm)]
    · rw [if_neg hak]
      simp only [findEntry, ih]
      by_cases haq : a = q
      · subst haq
        rw [if_pos rfl, if_neg hak, if_pos rfl]
      · rw [if_neg haq, if_neg haq]

theorem read_setEntry (s : Store) (k : String) (e : Entry) (q : String) :
    read (setEntry s k e) q = if q = k then (e.value, e.version) else read s q := by
  by_cases h : q = k <;> simp [read, findEntry_setEntry, h]

theorem stepState_eq (st : InstanceState) (req : MutationRequest) :
    stepState st req =
      if (read st.store req.key).2 = req.baseVersion then
        ⟨setEntry st.store req.key ⟨req.value, req.baseVersion + 1⟩,
         st.log ++ [⟨req.key, req.value, req.baseVersion + 1⟩]⟩
      else st := by
  unfold stepState handleMutate
  split_ifs with h1 h2 <;> first | rfl | simp_all

theorem stepState_log (st : InstanceState) (req : MutationRequest) :
    ∃ mid, (stepState st req).log = st.log ++ mid := by
  rw [stepState_eq]
  split_ifs
  · exact ⟨_, rfl⟩
  · exact ⟨[], (List.append_nil _).symm⟩

theorem stepState_log_length (st : InstanceState) (req : MutationRequest) :
    (stepState st req).log.length ≤ st.log.length + 1 := by
  rw [stepState_eq]
  split_ifs <;> simp

theorem foldl_stepState_log (reqs : List MutationRequest) (st : InstanceState) :
    ∃ rest, (reqs.foldl stepState st).log = st.log ++ rest := by
  induction reqs generalizing st with
  | nil => exact ⟨[], (List.append_nil _).symm⟩
  | cons r rs ih =>
    obtain ⟨mid, hm⟩ := stepState_log st r
    obtain ⟨rest2, h2⟩ := ih (stepState st r)
    exact ⟨mid ++ rest2, by rw [List.foldl_cons, h2, hm, List.append_assoc]⟩

theorem replay_concat (l : List EditRecord) (r : EditRecord) :
    replay (l ++ [r]) = applyRecord (replay l) r := by
  simp [replay, List.foldl_append]

theorem replay_faithful_step (st : InstanceState) (req : MutationRequest)
    (h : ∀ k, read (replay st.log) k = read st.store k) :
    ∀ k, read (replay (stepState st req).log) k = read (stepState st req).store k := by
  intro k
  rw [stepState_eq]
  by_cases hc : (read st.store req.key).2 = req.baseVersion
  · rw [if_pos hc]
    show read (replay (st.log ++ [⟨req.key, req.value, req.baseVersion + 1⟩])) k =
      read (setEntry st.store req.key ⟨req.value, req.baseVersion + 1⟩) k
    rw [replay_concat]
    show read (setEntry (replay st.log) req.key ⟨req.value, req.baseVersion + 1⟩) k = _
    rw [read_setEntry, read_setEntry]
    by_cases hk : k = req.key
    · rw [if_pos hk, if_pos hk]
    · rw [if_neg hk, if_neg hk]; exact h k
  · rw [if_neg hc]; exact h k

theorem replay_faithful_fold (reqs : List MutationRequest) (st : InstanceState)
    (h : ∀ k, read (replay st.log) k = read st.store k) :
    ∀ k, read (replay ((reqs.foldl stepState st).log)) k =
      read ((reqs.foldl stepState st).store) k := by
  induction reqs generalizing st with
  | nil => exact h
  | cons r rs ih => exact ih (stepState st r) (replay_faithful_step st r h)

theorem run_take_drop (reqs : List MutationRequest) (n : Nat) :
    run reqs = (reqs.drop n).foldl stepState (run (reqs.take n)) := by
  rw [run, run, ← List.foldl_append, List.take_append_drop]

end SyncEngine

namespace SyncEngine

theorem foldl_log_take (reqs : List MutationRequest) :
    ∀ (st : InstanceState) (m : Nat), st.log.length ≤ m →
      ∃ n, n ≤ reqs.length ∧
        (reqs.foldl stepState st).log.take m = ((reqs.take n).foldl stepState st).log := by
  induction reqs with
  | nil =>
    intro st m hm
    exact ⟨0, Nat.le_refl 0, by simp [List.take_of_length_le hm]⟩
  | cons r rs ih =>
    intro st m hm
    by_cases hb : (stepState st r).log.length ≤ m
    · obtain ⟨n, hn, heq⟩ := ih (stepState st r) m hb
      exact ⟨n + 1, Nat.succ_le_succ hn, by simpa using heq⟩
    · push_neg at hb
      obtain ⟨mid, hmid⟩ := stepState_log st r
      obtain ⟨rest, hrest⟩ := foldl_stepState_log rs (stepState st r)
      have hlen : (stepState st r).log.length ≤ st.log.length + 1 := stepState_log_length st r
      have hm2 : m = st.log.length := by omega
      refine ⟨0, Nat.zero_le _, ?_⟩
      show (rs.foldl stepState (stepState st r)).log.take m = st.log
      rw [hrest, hmid, List.append_assoc, hm2, List.take_left]

theorem stepState_version_mono (st : InstanceState) (req : MutationRequest) (k : String) :
    (read st.store k).2 ≤ (read (stepState st req).store k).2 := by
  rw [stepState_eq]
  by_cases hc : (read st.store req.key).2 = req.baseVersion
  · rw [if_pos hc]
    show _ ≤ (read (setEntry st.store req.key ⟨req.value, req.baseVersion + 1⟩) k).2
    rw [read_setEntry]
    by_cases hk : k = req.key
    · rw [if_pos hk]
      subst hk
      rw [hc]
      exact Nat.le_succ _
    · rw [if_neg hk]
  · rw [if_neg hc]

theorem foldl_version_mono (reqs : List MutationRequest) (st : InstanceState) (k : String) :
    (read st.store k).2 ≤ (read ((reqs.foldl stepState st).store) k).2 := by
  induction reqs generalizing st with
  | nil => exact Nat.le_refl _
  | cons r rs ih =>
    exact Nat.le_trans (stepState_version_mono st r k) (ih (stepState st r))

theorem apply_increments (st : InstanceState) (req : MutationRequest) (k v : String) (ver : Nat)
    (h : (handleMutate true st req).1 = Outcome.applied k v ver) :
    (read (stepState st req).store k).2 = (read st.store k).2 + 1 := by
  by_cases hc : (read st.store req.key).2 = req.baseVersion
  · unfold handleMutate at h
    rw [if_pos hc, if_pos rfl] at h
    have hk : req.key = k := by
      have := Outcome.applied.injEq req.key req.value (req.baseVersion + 1) k v ver
      rw [this] at h
      exact h.1
    rw [stepState_eq, if_pos hc]
    show (read (setEntry st.store req.key ⟨req.value, req.baseVersion + 1⟩) k).2 = _
    rw [read_setEntry, if_pos hk.symm, ← hk, hc]
  · unfold handleMutate at h
    rw [if_neg hc] at h
    exact absurd h (by simp)

theorem foldl_untouched (reqs : List MutationRequest) (st : InstanceState) (k : String)
    (h : ∀ r ∈ reqs, r.key ≠ k) :
    read ((reqs.foldl stepState st).store) k = read st.store k := by
  induction reqs generalizing st with
  | nil => rfl
  | cons r rs ih =>
    have hr : r.key ≠ k := h r (List.mem_cons_self r rs)
    have hrest : ∀ x ∈ rs, x.key ≠ k := fun x hx => h x (List.mem_cons_of_mem r hx)
    rw [List.foldl_cons, ih (stepState st r) hrest, stepState_eq]
    by_cases hc : (read st.store r.key).2 = r.baseVersion
    · rw [if_pos hc]
      show read (setEntry st.store r.key ⟨r.value, r.baseVersion + 1⟩) k = read st.store k
      rw [read_setEntry, if_neg (fun hh => hr hh.symm)]
    · rw [if_neg hc]

end SyncEngine

namespace SyncEngine

/-- Claim C1: write(key, value, expectedVersion) succeeds if and only if the
current version of the entry for the key equals expectedVersion; on success
it stores the value, sets the version of the key to expectedVersion + 1 and
returns the new version; on mismatch it fails with VersionConflict carrying
the current value and current version, and the store state is unchanged. -/
theorem writeContract (s : Store) (k v : String) (ev : Nat) :
    ((∃ newVer, (write s k v ev).1 = WriteResult.ok newVer) ↔ (read s k).2 = ev)
    ∧ ((read s k).2 = ev →
        (write s k v ev).1 = WriteResult.ok (ev + 1)
        ∧ read (write s k v ev).2 k = (v, ev + 1)
        ∧ (∀ q, q ≠ k → read (write s k v ev).2 q = read s q))
    ∧ ((read s k).2 ≠ ev →
        (write s k v ev).1 = WriteResult.versionConflict (read s k).1 (read s k).2
        ∧ (write s k v ev).2 = s) := by
  refine ⟨⟨?_, ?_⟩, ?_, ?_⟩
  · rintro ⟨nv, hnv⟩
    by_cases hc : (read s k).2 = ev
    · exact hc
    · rw [write, if_neg hc] at hnv
      exact absurd hnv (by simp)
  · intro hc
    exact ⟨ev + 1, by rw [write, if_pos hc]⟩
  · intro hc
    refine ⟨by rw [write, if_pos hc], ?_, ?_⟩
    · rw [write, if_pos hc]
      show read (setEntry s k ⟨v, ev + 1⟩) k = (v, ev + 1)
      rw [read_setEntry, if_pos rfl]
    · intro q hq
      rw [write, if_pos hc]
      show read (setEntry s k ⟨v, ev + 1⟩) q = read s q
      rw [read_setEntry, if_neg hq]
  · intro hc
    exact ⟨by rw [write, if_neg hc], by rw [write, if_neg hc]⟩

theorem writeContract_witness :
    (read ([] : Store) "a").2 = 0
    ∧ (write ([] : Store) "a" "x" 0).1 = WriteResult.ok 1
    ∧ read (write ([] : Store) "a" "x" 0).2 "a" = ("x", 1)
    ∧ (read ([] : Store) "a").2 ≠ 1
    ∧ (write ([] : Store) "a" "x" 1).1 = WriteResult.versionConflict "" 0
    ∧ (write ([] : Store) "a" "x" 1).2 = [] := by
  refine ⟨rfl, ?_, ?_, by decide, ?_, ?_⟩
  · exact ((writeContract [] "a" "x" 0).2.1 rfl).1
  · exact ((writeContract [] "a" "x" 0).2.1 rfl).2.1
  · exact ((writeContract [] "a" "x" 1).2.2 (by decide)).1
  · exact ((writeContract [] "a" "x" 1).2.2 (by decide)).2

/-- Claim C6: for every key not present in the store, read returns the pair
of the empty string and 0. -/
theorem readAbsent (s : Store) (k : String) (h : findEntry s k = none) :
    read s k = ("", 0) := by
  simp [read, h]

theorem readAbsent_witness :
    findEntry [("b", ⟨"y", 3⟩)] "a" = none ∧ read [("b", ⟨"y", 3⟩)] "a" = ("", 0) :=
  ⟨rfl, readAbsent [("b", ⟨"y", 3⟩)] "a" rfl⟩

/-- Claim C5: from a state where key hexA is absent, the mutation with key
hexA, value red and baseVersion 0 is accepted, setting the version to 1 and
broadcasting the applied message with value red and version 1 to all
sessions; a subsequent mutation with key hexA, value blue and baseVersion 0
is rejected with current value red and current version 1 and leaves the
state unchanged. -/
theorem hexAScenario :
    findEntry initialState.store "hexA" = none
    ∧ handleMutate true initialState ⟨"hexA", "red", 0⟩ =
        (Outcome.applied "hexA" "red" 1,
         ⟨[("hexA", ⟨"red", 1⟩)], [⟨"hexA", "red", 1⟩]⟩, Lifecycle.warm)
    ∧ deliveries [0, 1] 0 (handleMutate true initialState ⟨"hexA", "red", 0⟩).1 =
        [(0, Outcome.applied "hexA" "red" 1), (1, Outcome.applied "hexA" "red" 1)]
    ∧ (handleMutate true (stepState initialState ⟨"hexA", "red", 0⟩) ⟨"hexA", "blue", 0⟩).1 =
        Outcome.rejected "hexA" "red" 1
    ∧ (handleMutate true (stepState initialState ⟨"hexA", "red", 0⟩) ⟨"hexA", "blue", 0⟩).2.1 =
        stepState initialState ⟨"hexA", "red", 0⟩ := by
  decide

/-- Claim C3: along any sequence of store operations the version recorded
for a key never decreases, an accepted write increases the version of its
key by exactly 1, and a key never written has version 0 with the empty
value. -/
theorem versionInvariant :
    (∀ st req k, (read st.store k).2 ≤ (read (stepState st req).store k).2)
    ∧ (∀ reqs more k,
        (read (run reqs).store k).2 ≤ (read (run (reqs ++ more)).store k).2)
    ∧ (∀ st req k v ver, (handleMutate true st req).1 = Outcome.applied k v ver →
        (read (stepState st req).store k).2 = (read st.store k).2 + 1)
    ∧ (∀ reqs k, (∀ r ∈ reqs, r.key ≠ k) → read (run reqs).store k = ("", 0)) := by
  refine ⟨stepState_version_mono, ?_, apply_increments, ?_⟩
  · intro reqs more k
    rw [run, run, List.foldl_append]
    exact foldl_version_mono more (reqs.foldl stepState initialState) k
  · intro reqs k h
    rw [run, foldl_untouched reqs initialState k h]
    rfl

theorem versionInvariant_witness :
    ((handleMutate true initialState ⟨"a", "x", 0⟩).1 = Outcome.applied "a" "x" 1)
    ∧ (read (stepState initialState ⟨"a", "x", 0⟩).store "a").2 =
        (read initialState.store "a").2 + 1
    ∧ (∀ r ∈ [MutationRequest.mk "a" "x" 0], r.key ≠ "b")
    ∧ read (run [MutationRequest.mk "a" "x" 0]).store "b" = ("", 0) := by
  refine ⟨by decide, ?_, by decide, ?_⟩
  · exact versionInvariant.2.2.1 initialState ⟨"a", "x", 0⟩ "a" "x" 1 (by decide)
  · exact versionInvariant.2.2.2 [⟨"a", "x", 0⟩] "b" (by decide)

/-- Claim C2: for every sequence of mutation requests processed from an
empty instance and every cut point, replaying the Edit Log as it stood at
the cut point into an empty store reproduces exactly the per-key value and
version of the store at the cut point; the log at the cut point is a prefix
of the final log, and every prefix of the final log is the log of some cut
point, so replaying any prefix of the Edit Log reproduces the store state
that existed immediately after that prefix of mutations was accepted. -/
theorem editLogReplay (reqs : List MutationRequest) :
    (∀ n k, read (replay ((run (reqs.take n)).log)) k = read ((run (reqs.take n)).store) k)
    ∧ (∀ n, ∃ rest, (run reqs).log = (run (reqs.take n)).log ++ rest)
    ∧ (∀ m, ∃ n, (run reqs).log.take m = (run (reqs.take n)).log) := by
  refine ⟨?_, ?_, ?_⟩
  · intro n k
    exact replay_faithful_fold (reqs.take n) initialState (fun _ => rfl) k
  · intro n
    rw [run_take_drop reqs n]
    exact foldl_stepState_log (reqs.drop n) (run (reqs.take n))
  · intro m
    obtain ⟨n, _, h⟩ := foldl_log_take reqs initialState m (Nat.zero_le m)
    exact ⟨n, h⟩

/-- Claim C8: for every store state reached by a sequence of requests,
suspending the instance and rehydrating it by replaying the full Edit Log
yields a store whose per-key value and version are identical to the
pre-suspension store, and the log itself is unchanged, so suspension never
loses an accepted write. -/
theorem suspensionRehydration (reqs : List MutationRequest) :
    (∀ k, read ((rehydrate (suspend (run reqs))).store) k = read ((run reqs).store) k)
    ∧ (rehydrate (suspend (run reqs))).log = (run reqs).log := by
  refine ⟨?_, rfl⟩
  intro k
  show read (replay ((run reqs).log)) k = _
  exact replay_faithful_fold reqs initialState (fun _ => rfl) k

end SyncEngine

namespace SyncEngine

/-- Claim C4: a mutation request whose baseVersion equals the current
version of the store for its key is applied, the Edit Record is appended
to the log, and the applied message with version baseVersion + 1 is
broadcast to every session of the instance, the writer included; a request
whose baseVersion does not match is rejected, the current value and
current version are delivered to the requesting client only, and neither
the store nor the log changes, with no broadcast. -/
theorem conflictResolution (st : InstanceState) (req : MutationRequest)
    (sessions : List Nat) (requester : Nat) :
    ((read st.store req.key).2 = req.baseVersion →
      handleMutate true st req =
        (Outcome.applied req.key req.value (req.baseVersion + 1),
         ⟨setEntry st.store req.key ⟨req.value, req.baseVersion + 1⟩,
          st.log ++ [⟨req.key, req.value, req.baseVersion + 1⟩]⟩,
         Lifecycle.warm)
      ∧ deliveries sessions requester (handleMutate true st req).1 =
          sessions.map (fun sid => (sid, Outcome.applied req.key req.value (req.baseVersion + 1)))
      ∧ (requester ∈ sessions →
          (requester, Outcome.applied req.key req.value (req.baseVersion + 1)) ∈
            deliveries sessions requester (handleMutate true st req).1))
    ∧ ((read st.store req.key).2 ≠ req.baseVersion →
      (handleMutate true st req).1 =
        Outcome.rejected req.key (read st.store req.key).1 (read st.store req.key).2
      ∧ (handleMutate true st req).2.1 = st
      ∧ deliveries sessions requester (handleMutate true st req).1 =
          [(requester,
            Outcome.rejected req.key (read st.store req.key).1 (read st.store req.key).2)]) := by
  constructor
  · intro hc
    have h1 : handleMutate true st req =
        (Outcome.applied req.key req.value (req.baseVersion + 1),
         ⟨setEntry st.store req.key ⟨req.value, req.baseVersion + 1⟩,
          st.log ++ [⟨req.key, req.value, req.baseVersion + 1⟩]⟩,
         Lifecycle.warm) := by
      unfold handleMutate
      rw [if_pos hc]
      rfl
    refine ⟨h1, ?_, ?_⟩
    · rw [h1]
      rfl
    · intro hmem
      rw [h1]
      exact List.mem_map.mpr ⟨requester, hmem, rfl⟩
  · intro hc
    have h1 : handleMutate true st req =
        (Outcome.rejected req.key (read st.store req.key).1 (read st.store req.key).2,
         st, Lifecycle.warm) := by
      unfold handleMutate
      rw [if_neg hc]
    exact ⟨by rw [h1], by rw [h1], by rw [h1]; rfl⟩


theorem conflictResolution_witness :
    (read initialState.store "a").2 = 0
    ∧ handleMutate true initialState ⟨"a", "x", 0⟩ =
        (Outcome.applied "a" "x" 1, ⟨[("a", ⟨"x", 1⟩)], [⟨"a", "x", 1⟩]⟩, Lifecycle.warm)
    ∧ deliveries [7, 9] 7 (handleMutate true initialState ⟨"a", "x", 0⟩).1 =
        [(7, Outcome.applied "a" "x" 1), (9, Outcome.applied "a" "x" 1)]
    ∧ (7, Outcome.applied "a" "x" 1) ∈
        deliveries [7, 9] 7 (handleMutate true initialState ⟨"a", "x", 0⟩).1
    ∧ (read (run [MutationRequest.mk "a" "x" 0]).store "a").2 ≠ 0
    ∧ (handleMutate true (run [MutationRequest.mk "a" "x" 0]) ⟨"a", "y", 0⟩).1 =
        Outcome.rejected "a" "x" 1 := by
  have h1 := (conflictResolution initialState ⟨"a", "x", 0⟩ [7, 9] 7).1 rfl
  have h2 := (conflictResolution (run [MutationRequest.mk "a" "x" 0]) ⟨"a", "y", 0⟩
    [7, 9] 7).2 (by decide)
  exact ⟨rfl, h1.1, h1.2.1, h1.2.2 (by decide), by decide, h2.1⟩

/-- Claim C7: when the durable log append fails for a mutation, the
mutation is not applied to the store and not appended to the log, no
session other than the requesting client receives any message, the
requesting client is informed of the retryable log-append failure, and the
instance remains in the warm state. -/
theorem logAppendFailureSafety (st : InstanceState) (req : MutationRequest)
    (sessions : List Nat) (requester : Nat) :
    (handleMutate false st req).2.1 = st
    ∧ (handleMutate false st req).2.2 = Lifecycle.warm
    ∧ (∀ sid msg,
        (sid, msg) ∈ deliveries sessions requester (handleMutate false st req).1 →
          sid = requester)
    ∧ ((read st.store req.key).2 = req.baseVersion →
        deliveries sessions requester (handleMutate false st req).1 =
          [(requester, Outcome.logAppendFailed req.key)]) := by
  by_cases hc : (read st.store req.key).2 = req.baseVersion
  · have h1 : handleMutate false st req =
        (Outcome.logAppendFailed req.key, st, Lifecycle.warm) := by
      unfold handleMutate
      rw [if_pos hc, if_neg (by simp)]
    refine ⟨by rw [h1], by rw [h1], ?_, fun _ => by rw [h1]; rfl⟩
    intro sid msg hm
    rw [h1] at hm
    simp [deliveries] at hm
    exact hm.1
  · have h1 : handleMutate false st req =
        (Outcome.rejected req.key (read st.store req.key).1 (read st.store req.key).2,
         st, Lifecycle.warm) := by
      unfold handleMutate
      rw [if_neg hc]
    refine ⟨by rw [h1], by rw [h1], ?_, fun hcc => absurd hcc hc⟩
    intro sid msg hm
    rw [h1] at hm
    simp [deliveries] at hm
    exact hm.1

theorem logAppendFailureSafety_witness :
    (handleMutate false initialState ⟨"a", "x", 0⟩).2.1 = initialState
    ∧ (handleMutate false initialState ⟨"a", "x", 0⟩).2.2 = Lifecycle.warm
    ∧ (3 : Nat) = 3
    ∧ deliveries [3, 4] 3 (handleMutate false initialState ⟨"a", "x", 0⟩).1 =
        [(3, Outcome.logAppendFailed "a")] := by
  have h := logAppendFailureSafety initialState ⟨"a", "x", 0⟩ [3, 4] 3
  refine ⟨h.1, h.2.1, ?_, h.2.2.2 rfl⟩
  refine h.2.2.1 3 (Outcome.logAppendFailed "a") ?_
  rw [h.2.2.2 rfl]
  exact List.mem_singleton_self _

end SyncEngine

namespace DeployScript

theorem foldl_rmEntry (l : List String) (d : Dir) (n : String) :
    (l.foldl rmEntry d) n = if n ∈ l then none else d n := by
  induction l generalizing d with
  | nil => simp
  | cons a t ih =>
    rw [List.foldl_cons, ih]
    by_cases h1 : n ∈ t <;> by_cases h2 : n = a <;>
      simp [rmEntry, h1, h2, List.mem_cons]

theorem foldl_writeEntry_congr (l : List (String × String)) (d1 d2 : Dir) (n : String)
    (h : d1 n = d2 n) :
    (l.foldl (fun d p => writeEntry d p.1 p.2) d1) n =
      (l.foldl (fun d p => writeEntry d p.1 p.2) d2) n := by
  induction l generalizing d1 d2 with
  | nil => exact h
  | cons p t ih =>
    rw [List.foldl_cons, List.foldl_cons]
    apply ih
    by_cases hn : n = p.1 <;> simp [writeEntry, hn, h]

/-- Claim C9 as stated is false: .nojekyll is a pre-existing entry of the
pages/ directory other than .git, yet after the deploy its content is the
empty string that the script itself writes, not the content given by the
build output, which has no .nojekyll entry at all, so not every
pre-existing entry other than .git is replaced by the build output. -/
theorem deployNojekyllCounterexample :
    pagesExample ".nojekyll" = some "x"
    ∧ distDirOf distExample ".nojekyll" = none
    ∧ (deployCopy pagesExample listingExample distExample).map (fun d => d ".nojekyll") =
        some (some "")
    ∧ some "" ≠ distDirOf distExample ".nojekyll" := by
  refine ⟨rfl, rfl, rfl, by decide⟩

/-- Claim C9 amended: the deploy copy phase leaves pages/.git with its
original content, every entry other than .git and .nojekyll afterwards has
exactly the content given by the build output (so every other pre-existing
entry of pages/ except .nojekyll has been replaced by the build output),
and .nojekyll is always written as an empty file by the script itself. -/
theorem deployGitPreservation (pages : Dir) (listing : List String)
    (distEntries : List (String × String)) (g : String)
    (hgit : pages ".git" = some g)
    (hempty : pages "" = none)
    (hlist : ∀ n, n ≠ ".git" → pages n ≠ none → n ∈ listing) :
    (deployCopy pages listing distEntries).map (fun d => d ".git") = some (some g)
    ∧ (∀ n, n ≠ ".git" → n ≠ ".nojekyll" →
        (deployCopy pages listing distEntries).map (fun d => d n) =
          some (distDirOf distEntries n))
    ∧ (deployCopy pages listing distEntries).map (fun d => d ".nojekyll") =
        some (some "") := by
  have hdel : ∀ n, n ≠ ".git" →
      ((listing.filter (fun f => decide (f ≠ "" ∧ f ∉ filesToKeep))).foldl rmEntry pages) n =
        none := by
    intro n hn
    rw [foldl_rmEntry]
    by_cases hp : pages n = none
    · split_ifs
      · rfl
      · exact hp
    · have hmem : n ∈ listing := hlist n hn hp
      have hne : n ≠ "" := by
        intro he
        subst he
        exact hp hempty
      have hfil : n ∈ listing.filter (fun f => decide (f ≠ "" ∧ f ∉ filesToKeep)) := by
        rw [List.mem_filter]
        refine ⟨hmem, ?_⟩
        simp [filesToKeep, hne, hn]
      rw [if_pos hfil]
  have hmain : deployCopy pages listing distEntries =
      some (writeEntry (writeEntry
        (distEntries.foldl (fun d p => writeEntry d p.1 p.2)
          ((listing.filter (fun f => decide (f ≠ "" ∧ f ∉ filesToKeep))).foldl rmEntry pages))
        ".nojekyll" "") ".git" g) := by
    unfold deployCopy
    rw [hgit]
  refine ⟨?_, ?_, ?_⟩
  · rw [hmain]
    simp [writeEntry]
  · intro n hn1 hn2
    rw [hmain]
    show some (writeEntry (writeEntry _ ".nojekyll" "") ".git" g n) = _
    rw [writeEntry, if_neg hn1, writeEntry, if_neg hn2]
    rw [distDirOf]
    exact congrArg some
      (foldl_writeEntry_congr distEntries _ emptyDir n (by rw [hdel n hn1]; rfl))
  · rw [hmain]
    simp [writeEntry]

theorem deployGitPreservation_witness :
    pagesExample ".git" = some "G"
    ∧ pagesExample "" = none
    ∧ (∀ n, n ≠ ".git" → pagesExample n ≠ none → n ∈ listingExample)
    ∧ (deployCopy pagesExample listingExample distExample).map (fun d => d ".git") =
        some (some "G")
    ∧ (deployCopy pagesExample listingExample distExample).map (fun d => d "index.html") =
        some (distDirOf distExample "index.html")
    ∧ (deployCopy pagesExample listingExample distExample).map (fun d => d "old.html") =
        some (distDirOf distExample "old.html") := by
  have hl : ∀ n, n ≠ ".git" → pagesExample n ≠ none → n ∈ listingExample := by
    intro n hn hp
    by_cases h2 : n = ".nojekyll"
    · subst h2; decide
    by_cases h3 : n = "old.html"
    · subst h3; decide
    exfalso
    apply hp
    simp [pagesExample, hn, h2, h3]
  have h := deployGitPreservation pagesExample listingExample distExample "G" rfl rfl hl
  exact ⟨rfl, rfl, hl, h.1, h.2.1 "index.html" (by decide) (by decide),
    h.2.1 "old.html" (by decide) (by decide)⟩

end DeployScript

namespace CompactAssets

/-- Claim C10: compressImage never makes the file larger: in normal mode
the final content of the file is the compressed buffer exactly when the
buffer is strictly smaller than the original, and the original content
otherwise; in dry-run mode the original content is always restored
regardless of the compression result; in both modes the final length is at
most the original length. -/
theorem compressImageFileSafety (original compressedBuffer : List Nat) :
    (compressImage original compressedBuffer false).1 =
      (if compressedBuffer.length < original.length then compressedBuffer else original)
    ∧ ((compressImage original compressedBuffer false).1 = original
        ∨ ((compressImage original compressedBuffer false).1 = compressedBuffer
            ∧ compressedBuffer.length < original.length))
    ∧ (compressImage original compressedBuffer true).1 = original
    ∧ (compressImage original compressedBuffer false).1.length ≤ original.length
    ∧ (compressImage original compressedBuffer true).1.length ≤ original.length := by
  by_cases h : compressedBuffer.length < original.length
  · simp [compressImage, h, Nat.le_of_lt h]
  · simp [compressImage, h]

end CompactAssets
